import Mathlib

/-!
# Watch-registry verification

Shallow embedding of `src/src/global/commands/g.watchuser.ts` (TripBot's
watch-user command core): an in-memory index `watchedUsers` mapping a target
user id to its watch requests, a persisted mirror (Prisma tables
`watched_users` / `watch_request`), the registrar operations `executeWatch`
and `deleteWatchRequest`, the persistence helpers `dbAddOrUpdateWatchedUser`
and `dbDeleteWatchRequestOrWatchedUser`, and the dispatcher `nightsWatch`.

Conventions of the embedding:
* TypeScript objects become structures; `null` becomes `Option`.
* The in-memory index (a JS object used as a map) and the persisted
  `watched_users` table become functions `String → Option _` updated
  pointwise.
* Asynchronous store calls are threaded explicitly as state; each registrar
  operation additionally reports (as a `Bool`) whether it invoked its
  persistence helper, so that "no store call was made" is observable.
* A Prisma row create draws a fresh surrogate `id` from a counter `nextId`,
  matching the autoincrement primary key used by `watch_request.delete`.
* `users.fetch` / `guilds.fetch` / `channels.fetch` are modelled by an
  oracle (`Resolver`) returning `Option`; a `none` means the fetch failed
  (rejected or returned nothing), which aborts that request's callback
  without sending or removing, exactly as in the source where a rejected
  await ends the per-request callback.
-/

/-- In-memory watch request (interface `WatchRequest`, source lines 14-18). -/
structure WatchRequest where
  notificationMethod : String
  channelId : Option String
  callerId : String
deriving DecidableEq, Repr

/-- In-memory aggregate (interface `WatchedUser`, source lines 9-12). -/
structure WatchedUser where
  targetUserId : String
  watchRequests : List WatchRequest
deriving DecidableEq, Repr

/-- Persisted `watch_request` row (type `DbWatchRequest`, source lines 21-28).
The `watched_user_id` foreign key is represented by nesting the row inside
its `DbUser` aggregate rather than as a field. -/
structure DbRow where
  id : Nat
  notification_method : String
  channel_id : Option String
  caller_id : String
deriving DecidableEq, Repr

/-- Persisted `watched_users` row together with its related `watch_request`
rows (what `findUnique ... include: watch_requests` returns). -/
structure DbUser where
  target_user_id : String
  created_by : String
  watch_requests : List DbRow
deriving DecidableEq, Repr

/-- The in-memory index `watchedUsers` (source line 30), a map from target
user id to aggregate. -/
abbrev Mem := String → Option WatchedUser

/-- The persistent store: the `watched_users` table (keyed by
`target_user_id`) plus the autoincrement counter for `watch_request.id`. -/
structure Db where
  users : String → Option DbUser
  nextId : Nat

/-- Pointwise update of the in-memory index. -/
def Mem.set (m : Mem) (k : String) (v : Option WatchedUser) : Mem :=
  fun k' => if k' = k then v else m k'

/-- Pointwise update of the `watched_users` table. -/
def Db.setUser (db : Db) (k : String) (v : Option DbUser) : Db :=
  { db with users := fun k' => if k' = k then v else db.users k' }

/-- Build a persisted row from an in-memory request (the field mapping done
by the nested `create` / `createMany` payloads, source lines 51-55 and
66-70). -/
def mkRow (id : Nat) (r : WatchRequest) : DbRow :=
  { id := id
    notification_method := r.notificationMethod
    channel_id := r.channelId
    caller_id := r.callerId }

/-- Forget the surrogate id: the request content a persisted row carries. -/
def rowToReq (r : DbRow) : WatchRequest :=
  { notificationMethod := r.notification_method
    channelId := r.channel_id
    callerId := r.caller_id }

/-- Embeds `dbAddOrUpdateWatchedUser` (source lines 32-76).
If the aggregate row exists, one new `watch_request` row is created from
`watchRequests[watchRequests.length - 1]` (the update branch, lines 40-58);
on an empty list that subscript is `undefined` and the source would crash
building the payload, modelled as `none`. If no aggregate row exists, a new
one is created with one row per element (`createMany`, lines 61-75). -/
def dbAddOrUpdateWatchedUser (targetUserId : String)
    (watchRequests : List WatchRequest) (createdBy : String) (db : Db) :
    Option Db :=
  match db.users targetUserId with
  | some existingWatchedUser =>
    match watchRequests.getLast? with
    | none => none
    | some latestRequest =>
      some { users := fun k' =>
               if k' = targetUserId then
                 some { existingWatchedUser with
                        watch_requests :=
                          existingWatchedUser.watch_requests
                            ++ [mkRow db.nextId latestRequest] }
               else db.users k'
             nextId := db.nextId + 1 }
  | none =>
    some { users := fun k' =>
             if k' = targetUserId then
               some { target_user_id := targetUserId
                      created_by := createdBy
                      watch_requests :=
                        watchRequests.enum.map
                          (fun p => mkRow (db.nextId + p.1) p.2) }
             else db.users k'
           nextId := db.nextId + watchRequests.length }

/-- Embeds `dbDeleteWatchRequestOrWatchedUser` (source lines 78-105).
Fetch the aggregate with its rows; if absent, return. Delete the first row
whose `caller_id` matches (by its surrogate `id`, lines 92-96). Then, if the
FETCHED list had length ≤ 1 (line 100 tests the pre-deletion array), delete
the aggregate row itself. -/
def dbDeleteWatchRequestOrWatchedUser (targetUserId callerId : String)
    (db : Db) : Db :=
  match db.users targetUserId with
  | none => db
  | some watchedUser =>
    let watchRequests := watchedUser.watch_requests
    let db1 :=
      match watchRequests.find? (fun r => r.caller_id == callerId) with
      | some requestToDelete =>
        db.setUser targetUserId
          (some { watchedUser with
                  watch_requests :=
                    watchRequests.eraseP
                      (fun r => r.id == requestToDelete.id) })
      | none => db
    if watchRequests.length ≤ 1 then db1.setUser targetUserId none else db1

/-- Embeds `deleteWatchRequest` (source lines 107-134). Returns
(result, new index, new store, whether the persistence helper was called).
The source splices the first request whose `callerId` matches out of the
in-memory array, drops the index entry when the array becomes empty, and
only then awaits `dbDeleteWatchRequestOrWatchedUser`. -/
def deleteWatchRequest (targetUserId callerId : String) (mem : Mem)
    (db : Db) : Bool × Mem × Db × Bool :=
  match mem targetUserId with
  | none => (false, mem, db, false)
  | some watch =>
    let watchRequests := watch.watchRequests
    match watchRequests.findIdx? (fun r => r.callerId == callerId) with
    | none => (false, mem, db, false)
    | some indexToDelete =>
      let newRequests := watchRequests.eraseIdx indexToDelete
      let mem' :=
        if newRequests.length = 0 then
          mem.set targetUserId none
        else
          mem.set targetUserId (some { watch with watchRequests := newRequests })
      (true, mem', dbDeleteWatchRequestOrWatchedUser targetUserId callerId db,
        true)

/-- Embeds `executeWatch` (source lines 162-207), with the Discord `User`
and `TextChannel` arguments reduced to their ids. Returns
(result, new index, new store, whether the persistence helper was called);
the outer `Option` is `none` only if `dbAddOrUpdateWatchedUser` crashed,
which never happens on the lists this function passes. The source scans the
existing requests for the caller (lines 175-180) and returns `false` on a
duplicate before touching any state; otherwise it pushes the new request
in memory and then awaits the persistence helper. -/
def executeWatch (targetId notificationMethod callerId : String)
    (alertChannelId : Option String) (mem : Mem) (db : Db) :
    Option (Bool × Mem × Db × Bool) :=
  match mem targetId with
  | some watch =>
    let watchRequests := watch.watchRequests
    if watchRequests.any (fun r => r.callerId == callerId) then
      some (false, mem, db, false)
    else
      let newRequests := watchRequests ++
        [{ notificationMethod := notificationMethod
           channelId := alertChannelId
           callerId := callerId }]
      let mem' := mem.set targetId
        (some { watch with watchRequests := newRequests })
      (dbAddOrUpdateWatchedUser targetId newRequests callerId db).map
        (fun db' => (true, mem', db', true))
  | none =>
    let newWatchRequests : List WatchRequest :=
      [{ notificationMethod := notificationMethod
         channelId := alertChannelId
         callerId := callerId }]
    let mem' := mem.set targetId
      (some { targetUserId := targetId, watchRequests := newWatchRequests })
    (dbAddOrUpdateWatchedUser targetId newWatchRequests callerId db).map
      (fun db' => (true, mem', db', true))

/-- A registrar call: either a watch command (`executeWatch`) or an unwatch
(`deleteWatchRequest`). -/
inductive Op where
  | watch (targetId notificationMethod callerId : String)
      (alertChannelId : Option String)
  | unwatch (targetId callerId : String)

/-- One registrar call applied to the paired (index, store) state. The
`none` branch of `executeWatch` is unreachable (its argument lists are
never empty) and conservatively leaves the state unchanged. -/
def step (s : Mem × Db) (op : Op) : Mem × Db :=
  match op with
  | .watch t n c ch =>
    match executeWatch t n c ch s.1 s.2 with
    | some (_, m, d, _) => (m, d)
    | none => s
  | .unwatch t c =>
    let r := deleteWatchRequest t c s.1 s.2
    (r.2.1, r.2.2.1)

/-- The empty initial state: empty index, empty store. -/
def state0 : Mem × Db := (fun _ => none, { users := fun _ => none, nextId := 0 })

/-- A sequence of registrar calls run from the empty state. -/
def run (ops : List Op) : Mem × Db := ops.foldl step state0

/-- Oracle for the Discord fetches done by `nightsWatch`: `fetchUser` models
`client.users.fetch`, `fetchGuild` models `client.guilds.fetch(env.DISCORD_GUILD_ID)`,
and `fetchChannel` models `tripsitGuild.channels.fetch`. A `none` means the
fetch failed. -/
structure Resolver where
  fetchUser : String → Option String
  fetchGuild : Option String
  fetchChannel : String → Option String

/-- One outbound notification message, recorded by recipient caller, watched
target, and (for the channel method) the destination channel. -/
structure Send where
  callerId : String
  targetUserId : String
  viaChannel : Option String
deriving DecidableEq, Repr

/-- Embeds the per-request callback body of `nightsWatch` (source lines
142-158): fetch the target, then branch on the notification method; on the
dm branch fetch the caller, send, and delete the request; on the channel
branch fetch the guild, require a channel id, fetch the channel and the
caller, send, and delete the request. Any failed fetch aborts the callback
with no send and no deletion. -/
def watchCallback (res : Resolver) (watchTargetUserId : String)
    (watchRequestObj : WatchRequest) (mem : Mem) (db : Db) :
    List Send × Mem × Db :=
  match res.fetchUser watchTargetUserId with
  | none => ([], mem, db)
  | some _target =>
    if watchRequestObj.notificationMethod == "dm" then
      match res.fetchUser watchRequestObj.callerId with
      | some _caller =>
        let r := deleteWatchRequest watchTargetUserId
          watchRequestObj.callerId mem db
        ([{ callerId := watchRequestObj.callerId
            targetUserId := watchTargetUserId
            viaChannel := none }], r.2.1, r.2.2.1)
      | none => ([], mem, db)
    else if watchRequestObj.notificationMethod == "channel" then
      match res.fetchGuild with
      | none => ([], mem, db)
      | some _tripsitGuild =>
        match watchRequestObj.channelId with
        | none => ([], mem, db)
        | some chId =>
          match res.fetchChannel chId with
          | none => ([], mem, db)
          | some _notificationChannel =>
            match res.fetchUser watchRequestObj.callerId with
            | none => ([], mem, db)
            | some _caller =>
              let r := deleteWatchRequest watchTargetUserId
                watchRequestObj.callerId mem db
              ([{ callerId := watchRequestObj.callerId
                  targetUserId := watchTargetUserId
                  viaChannel := some chId }], r.2.1, r.2.2.1)
    else ([], mem, db)

/-- Runs the dispatch callbacks over the snapshot of the request list, in
list order, threading the state and collecting the sends. The source's
`forEach` with an `async` callback invokes every callback on the elements
of the array as it was when dispatch began (each callback suspends at its
first `await` before any mutation happens), so the element sequence is a
snapshot; the callbacks' effects are modelled as completing in list order. -/
def watchRequestsRun (res : Resolver) (watchTargetUserId : String) :
    List WatchRequest → Mem → Db → List Send × Mem × Db
  | [], mem, db => ([], mem, db)
  | wr :: rest, mem, db =>
    let r1 := watchCallback res watchTargetUserId wr mem db
    let r2 := watchRequestsRun res watchTargetUserId rest r1.2.1 r1.2.2
    (r1.1 ++ r2.1, r2.2.1, r2.2.2)

/-- Embeds `nightsWatch` (source lines 136-160): on a message by
`authorId` inside a guild (`hasGuild`), look the author up in the index and
fulfill each of its watch requests. -/
def nightsWatch (res : Resolver) (authorId : String) (hasGuild : Bool)
    (mem : Mem) (db : Db) : List Send × Mem × Db :=
  match mem authorId with
  | none => ([], mem, db)
  | some watch =>
    if hasGuild then
      watchRequestsRun res watch.targetUserId watch.watchRequests mem db
    else ([], mem, db)

/-- One observed target-activity event: the resolver in force, the message
author, and whether the message is in a guild. -/
structure DispatchEv where
  res : Resolver
  authorId : String
  hasGuild : Bool

/-- A sequence of dispatched events, threading state and collecting sends. -/
def runDispatches : List DispatchEv → Mem → Db → List Send × Mem × Db
  | [], mem, db => ([], mem, db)
  | e :: rest, mem, db =>
    let r1 := nightsWatch e.res e.authorId e.hasGuild mem db
    let r2 := runDispatches rest r1.2.1 r1.2.2
    (r1.1 ++ r2.1, r2.2.1, r2.2.2)

/-- Whether the index holds a watch request by `callerId` on target `t`. -/
def hasReq (mem : Mem) (t callerId : String) : Bool :=
  match mem t with
  | some u => u.watchRequests.any (fun r => r.callerId == callerId)
  | none => false

/-- Number of sends addressed to caller `c` about target `t`. -/
def sendsFor (t c : String) (sends : List Send) : Nat :=
  (sends.filter (fun s => s.targetUserId == t && s.callerId == c)).length

/-- Whether every fetch needed to fulfill this request succeeds — exactly
the condition under which the `nightsWatch` callback sends a notification. -/
def resolves (res : Resolver) (watchTargetUserId : String)
    (wr : WatchRequest) : Bool :=
  (res.fetchUser watchTargetUserId).isSome &&
    (if wr.notificationMethod == "dm" then
      (res.fetchUser wr.callerId).isSome
    else if wr.notificationMethod == "channel" then
      res.fetchGuild.isSome &&
        (match wr.channelId with
         | some chId =>
           (res.fetchChannel chId).isSome && (res.fetchUser wr.callerId).isSome
         | none => false)
    else false)

/-- Invariant: within each index entry, callers are pairwise distinct. -/
def MemUniq (mem : Mem) : Prop :=
  ∀ t u, mem t = some u → (u.watchRequests.map (fun r => r.callerId)).Nodup

/-- Invariant: each index entry records the key it is filed under. -/
def MemKeyed (mem : Mem) : Prop :=
  ∀ t u, mem t = some u → u.targetUserId = t

/-- Invariant: no index entry has an empty request list. -/
def MemNonEmpty (mem : Mem) : Prop :=
  ∀ t u, mem t = some u → u.watchRequests ≠ []

/-- Invariant on the store: within each aggregate the surrogate ids are
pairwise distinct and below the autoincrement counter. -/
def DbInv (db : Db) : Prop :=
  ∀ t u, db.users t = some u →
    (u.watch_requests.map (fun r => r.id)).Nodup ∧
      ∀ r ∈ u.watch_requests, r.id < db.nextId

/-- The request list held in memory for a target (empty if no entry). -/
def memList (mem : Mem) (t : String) : List WatchRequest :=
  match mem t with
  | some u => u.watchRequests
  | none => []

/-- The request contents persisted for a target (empty if no aggregate). -/
def dbList (db : Db) (t : String) : List WatchRequest :=
  match db.users t with
  | some u => u.watch_requests.map rowToReq
  | none => []

/-- Convergence of the two representations: for every target, presence
agrees and the persisted rows carry exactly the in-memory requests. -/
def Conv (mem : Mem) (db : Db) : Prop :=
  ∀ t, (mem t).isSome = (db.users t).isSome ∧ memList mem t = dbList db t

/-! ## Basic unfolding lemmas -/

theorem Mem.set_apply (m : Mem) (k : String) (v : Option WatchedUser)
    (k' : String) : m.set k v k' = if k' = k then v else m k' := rfl

theorem Db.setUser_apply (db : Db) (k : String) (v : Option DbUser)
    (k' : String) :
    (db.setUser k v).users k' = if k' = k then v else db.users k' := rfl

theorem Db.setUser_nextId (db : Db) (k : String) (v : Option DbUser) :
    (db.setUser k v).nextId = db.nextId := rfl

theorem rowToReq_mkRow (i : Nat) (r : WatchRequest) :
    rowToReq (mkRow i r) = r := rfl

/-! ## List decomposition at the first match -/

/-- A successful `findIdx?` splits the list around a first match, and
`eraseIdx` at that index drops exactly the matching element. -/
theorem findIdx?_some_decomp {α : Type} {p : α → Bool} {l : List α} {i : Nat}
    (h : l.findIdx? p = some i) :
    ∃ l1 a l2, l = l1 ++ a :: l2 ∧ p a = true ∧ (∀ b ∈ l1, p b = false) ∧
      l1.length = i ∧ l.eraseIdx i = l1 ++ l2 := by
  induction l generalizing i with
  | nil => simp [List.findIdx?] at h
  | cons x xs ih =>
    rw [List.findIdx?_cons] at h
    by_cases hx : p x
    · simp only [hx, if_pos] at h
      obtain rfl : (0 : Nat) = i := by simpa using h
      exact ⟨[], x, xs, by simp, hx, by simp, by simp, by simp⟩
    · simp only [hx, if_neg, Bool.false_eq_true, not_false_eq_true,
        List.findIdx?_succ, Option.map_eq_some'] at h
      obtain ⟨j, hj, hji⟩ := h
      obtain ⟨l1, a, l2, hl, hpa, hl1, hlen, herase⟩ := ih hj
      refine ⟨x :: l1, a, l2, by simp [hl], hpa, ?_, by simp [hlen, hji], ?_⟩
      · intro b hb
        rcases List.mem_cons.1 hb with rfl | hb
        · exact Bool.eq_false_iff.2 hx
        · exact hl1 b hb
      · rw [← hji, List.eraseIdx_cons_succ, herase, List.cons_append]

/-- A list with no match has a failing `findIdx?`. -/
theorem findIdx?_none_of_all {α : Type} {p : α → Bool} {l : List α}
    (h : ∀ a ∈ l, p a = false) : l.findIdx? p = none :=
  List.findIdx?_eq_none_iff.2 h

/-- Deleting the first `caller_id` match by its surrogate id: on a row list
with pairwise-distinct ids, `find?` returns the first match and `eraseP` on
its id removes exactly that row. -/
theorem dbRows_delete_decomp {c : String} {R1 : List DbRow} {rd : DbRow}
    {R2 : List DbRow}
    (hids : (((R1 ++ rd :: R2).map (fun r => r.id)).Nodup))
    (hrd : (rd.caller_id == c) = true)
    (hR1 : ∀ r ∈ R1, (r.caller_id == c) = false) :
    (R1 ++ rd :: R2).find? (fun r => r.caller_id == c) = some rd ∧
      (R1 ++ rd :: R2).eraseP (fun r => r.id == rd.id) = R1 ++ R2 := by
  rw [List.map_append, List.map_cons, List.nodup_middle] at hids
  have hnotin : rd.id ∉ R1.map (fun r => r.id) ++ R2.map (fun r => r.id) :=
    (List.nodup_cons.1 hids).1
  constructor
  · rw [List.find?_append]
    have h1 : R1.find? (fun r => r.caller_id == c) = none :=
      List.find?_eq_none.2 (fun x hx => by simp [hR1 x hx])
    rw [h1, Option.none_or,
      @List.find?_cons_of_pos DbRow (fun r => r.caller_id == c) rd R2 hrd]
  · have hne : ∀ r ∈ R1, ¬((r.id == rd.id) = true) := by
      intro r hr hcontra
      have : r.id = rd.id := by simpa using hcontra
      exact hnotin (List.mem_append_left _
        (this ▸ List.mem_map_of_mem (fun r => r.id) hr))
    rw [List.eraseP_append_right _ hne, List.eraseP_cons_of_pos (by simp)]

/-! ## Branch equations for the registrar operations -/

/-- The new request `executeWatch` builds from its arguments. -/
def newReq (notificationMethod callerId : String)
    (alertChannelId : Option String) : WatchRequest :=
  { notificationMethod := notificationMethod
    channelId := alertChannelId
    callerId := callerId }

theorem executeWatch_dup {t n c : String} {ch : Option String} {mem : Mem}
    {db : Db} {watch : WatchedUser} (hw : mem t = some watch)
    (hdup : watch.watchRequests.any (fun r => r.callerId == c) = true) :
    executeWatch t n c ch mem db = some (false, mem, db, false) := by
  unfold executeWatch
  rw [hw]
  simp [hdup]

theorem executeWatch_append {t n c : String} {ch : Option String} {mem : Mem}
    {db : Db} {watch : WatchedUser} {ex : DbUser} (hw : mem t = some watch)
    (hdup : watch.watchRequests.any (fun r => r.callerId == c) = false)
    (hdb : db.users t = some ex) :
    executeWatch t n c ch mem db =
      some (true,
        mem.set t (some { watch with
          watchRequests := watch.watchRequests ++ [newReq n c ch] }),
        { users := fun k' =>
            if k' = t then
              some { ex with watch_requests :=
                ex.watch_requests ++ [mkRow db.nextId (newReq n c ch)] }
            else db.users k'
          nextId := db.nextId + 1 },
        true) := by
  unfold executeWatch dbAddOrUpdateWatchedUser
  rw [hw]
  simp only [hdup, Bool.false_eq_true, if_neg, not_false_eq_true, hdb,
    List.getLast?_concat, Option.map_some', newReq]

theorem executeWatch_create {t n c : String} {ch : Option String} {mem : Mem}
    {db : Db} (hw : mem t = none) (hdb : db.users t = none) :
    executeWatch t n c ch mem db =
      some (true,
        mem.set t (some { targetUserId := t,
                          watchRequests := [newReq n c ch] }),
        { users := fun k' =>
            if k' = t then
              some { target_user_id := t
                     created_by := c
                     watch_requests := [mkRow db.nextId (newReq n c ch)] }
            else db.users k'
          nextId := db.nextId + 1 },
        true) := by
  unfold executeWatch dbAddOrUpdateWatchedUser
  rw [hw, hdb]
  simp only [List.enum_cons, List.enumFrom_nil, List.map_cons, List.map_nil,
    List.length_cons, List.length_nil, Nat.zero_add, Option.map_some',
    Nat.add_zero, newReq, Mem.set]

theorem deleteWatchRequest_noEntry {t c : String} {mem : Mem} {db : Db}
    (hw : mem t = none) :
    deleteWatchRequest t c mem db = (false, mem, db, false) := by
  unfold deleteWatchRequest
  rw [hw]

theorem deleteWatchRequest_noMatch {t c : String} {mem : Mem} {db : Db}
    {watch : WatchedUser} (hw : mem t = some watch)
    (hfind : watch.watchRequests.findIdx? (fun r => r.callerId == c) = none) :
    deleteWatchRequest t c mem db = (false, mem, db, false) := by
  unfold deleteWatchRequest
  rw [hw]
  simp [hfind]

theorem deleteWatchRequest_found {t c : String} {mem : Mem} {db : Db}
    {watch : WatchedUser} {i : Nat} (hw : mem t = some watch)
    (hfind : watch.watchRequests.findIdx? (fun r => r.callerId == c) =
      some i) :
    deleteWatchRequest t c mem db =
      (true,
        (if (watch.watchRequests.eraseIdx i).length = 0 then
          mem.set t none
        else
          mem.set t (some { watch with
            watchRequests := watch.watchRequests.eraseIdx i })),
        dbDeleteWatchRequestOrWatchedUser t c db,
        true) := by
  unfold deleteWatchRequest
  rw [hw]
  simp [hfind]

theorem dbDelete_noUser {t c : String} {db : Db} (hdb : db.users t = none) :
    dbDeleteWatchRequestOrWatchedUser t c db = db := by
  unfold dbDeleteWatchRequestOrWatchedUser
  rw [hdb]

/-- Store-side deletion when the fetched aggregate decomposes around the
first matching row: the matching row is deleted; the aggregate row is
deleted precisely when the FETCHED list had at most one row. -/
theorem dbDelete_found {t c : String} {db : Db} {du : DbUser}
    {R1 : List DbRow} {rd : DbRow} {R2 : List DbRow}
    (hdb : db.users t = some du)
    (hsplit : du.watch_requests = R1 ++ rd :: R2)
    (hids : ((du.watch_requests.map (fun r => r.id)).Nodup))
    (hrd : (rd.caller_id == c) = true)
    (hR1 : ∀ r ∈ R1, (r.caller_id == c) = false) :
    dbDeleteWatchRequestOrWatchedUser t c db =
      if du.watch_requests.length ≤ 1 then
        (db.setUser t
          (some { du with watch_requests := R1 ++ R2 })).setUser t none
      else
        db.setUser t (some { du with watch_requests := R1 ++ R2 }) := by
  have hd := dbRows_delete_decomp (hsplit ▸ hids) hrd hR1
  unfold dbDeleteWatchRequestOrWatchedUser
  rw [hdb]
  simp only [hsplit, hd.1, hd.2]

/-- Store-side deletion when no row matches: no row is deleted, but the
aggregate row is still deleted when the fetched list had at most one row. -/
theorem dbDelete_noMatch {t c : String} {db : Db} {du : DbUser}
    (hdb : db.users t = some du)
    (hnone : du.watch_requests.find? (fun r => r.caller_id == c) = none) :
    dbDeleteWatchRequestOrWatchedUser t c db =
      if du.watch_requests.length ≤ 1 then db.setUser t none else db := by
  unfold dbDeleteWatchRequestOrWatchedUser
  rw [hdb]
  simp only [hnone]

/-! ## The reachable-state invariant -/

/-- Everything that holds of every state reachable by registrar calls from
the empty state: per-target caller uniqueness, entries filed under their own
key, no empty entries, memory/store convergence, and store id freshness. -/
structure GoodState (s : Mem × Db) : Prop where
  uniq : MemUniq s.1
  keyed : MemKeyed s.1
  nonEmpty : MemNonEmpty s.1
  conv : Conv s.1 s.2
  dbInv : DbInv s.2

/-- Any variant of the caller-uniqueness check: a false `any` gives
pointwise failure. -/
theorem any_false_of_not {l : List WatchRequest} {c : String}
    (h : l.any (fun r => r.callerId == c) = false) :
    ∀ r ∈ l, (r.callerId == c) = false := by
  intro r hr
  by_contra hc
  have : l.any (fun r => r.callerId == c) = true :=
    List.any_eq_true.2 ⟨r, hr, by simpa using hc⟩
  rw [h] at this
  exact Bool.false_ne_true this

/-- The caller of a matching request is not among a list of requests that
all fail the check. -/
theorem not_mem_map_of_all_false {l : List WatchRequest} {c : String}
    (h : ∀ r ∈ l, (r.callerId == c) = false) :
    c ∉ l.map (fun r => r.callerId) := by
  intro hc
  obtain ⟨r, hr, hrc⟩ := List.mem_map.1 hc
  have := h r hr
  rw [hrc] at this
  simp at this


/-! ## Pointwise-update helpers for the invariant fields -/

theorem memUniq_set {mem : Mem} {k : String} {v : Option WatchedUser}
    (h : MemUniq mem)
    (hv : ∀ u, v = some u →
      (u.watchRequests.map (fun r => r.callerId)).Nodup) :
    MemUniq (mem.set k v) := by
  intro t' u' h'
  rw [Mem.set_apply] at h'
  by_cases ht : t' = k
  · rw [if_pos ht] at h'
    exact hv u' h'
  · rw [if_neg ht] at h'
    exact h t' u' h'

theorem memKeyed_set {mem : Mem} {k : String} {v : Option WatchedUser}
    (h : MemKeyed mem) (hv : ∀ u, v = some u → u.targetUserId = k) :
    MemKeyed (mem.set k v) := by
  intro t' u' h'
  rw [Mem.set_apply] at h'
  by_cases ht : t' = k
  · rw [if_pos ht] at h'
    exact ht ▸ hv u' h'
  · rw [if_neg ht] at h'
    exact h t' u' h'

theorem memNonEmpty_set {mem : Mem} {k : String} {v : Option WatchedUser}
    (h : MemNonEmpty mem) (hv : ∀ u, v = some u → u.watchRequests ≠ []) :
    MemNonEmpty (mem.set k v) := by
  intro t' u' h'
  rw [Mem.set_apply] at h'
  by_cases ht : t' = k
  · rw [if_pos ht] at h'
    exact hv u' h'
  · rw [if_neg ht] at h'
    exact h t' u' h'

theorem dbInv_of_pointwise {db' db : Db} {k : String} {v : Option DbUser}
    (husers : ∀ k', db'.users k' = if k' = k then v else db.users k')
    (hm : db.nextId ≤ db'.nextId) (h : DbInv db)
    (hv : ∀ u, v = some u →
      (u.watch_requests.map (fun r => r.id)).Nodup ∧
        ∀ r ∈ u.watch_requests, r.id < db'.nextId) :
    DbInv db' := by
  intro t' u' h'
  rw [husers t'] at h'
  by_cases ht : t' = k
  · rw [if_pos ht] at h'
    exact hv u' h'
  · rw [if_neg ht] at h'
    obtain ⟨h1, h2⟩ := h t' u' h'
    exact ⟨h1, fun r hr => lt_of_lt_of_le (h2 r hr) hm⟩

theorem conv_of_pointwise {mem : Mem} {db db' : Db} {k : String}
    {v : Option WatchedUser} {w : Option DbUser}
    (husers : ∀ k', db'.users k' = if k' = k then w else db.users k')
    (h : Conv mem db) (hp : v.isSome = w.isSome)
    (hl : (v.map (fun u => u.watchRequests)).getD [] =
      (w.map (fun u => u.watch_requests.map rowToReq)).getD []) :
    Conv (mem.set k v) db' := by
  intro t'
  by_cases ht : t' = k
  · subst ht
    have h1 : mem.set t' v t' = v := by simp [Mem.set_apply]
    have h2 : db'.users t' = w := by simp [husers t']
    constructor
    · rw [h1, h2, hp]
    · simp only [memList, dbList, h1, h2]
      cases v with
      | none =>
        cases w with
        | none => simp
        | some wu => simp at hp
      | some vu =>
        cases w with
        | none => simp at hp
        | some wu => simpa using hl
  · have h1 : mem.set k v t' = mem t' := by simp [Mem.set_apply, ht]
    have h2 : db'.users t' = db.users t' := by simp [husers t', ht]
    have hc := h t'
    constructor
    · rw [h1, h2]
      exact hc.1
    · simp only [memList, dbList, h1, h2]
      simpa [memList, dbList] using hc.2

/-- Special case of `conv_of_pointwise`: the entry disappears on both
sides. -/
theorem conv_of_pointwise_none {mem : Mem} {db db' : Db} {k : String}
    (husers : ∀ k', db'.users k' = if k' = k then none else db.users k')
    (h : Conv mem db) : Conv (mem.set k none) db' :=
  conv_of_pointwise husers h rfl rfl

/-- A watch command preserves the reachable-state invariant. -/
theorem step_watch_good {t n c : String} {ch : Option String} {mem : Mem}
    {db : Db} (h : GoodState (mem, db)) :
    GoodState (step (mem, db) (.watch t n c ch)) := by
  simp only [step]
  cases hw : mem t with
  | some watch =>
    cases hdup : watch.watchRequests.any (fun r => r.callerId == c) with
    | true =>
      rw [executeWatch_dup hw hdup]
      exact h
    | false =>
      have hpres : (mem t).isSome = (db.users t).isSome := (h.conv t).1
      rw [hw] at hpres
      cases hdb : db.users t with
      | none => rw [hdb] at hpres; simp at hpres
      | some ex =>
        rw [executeWatch_append hw hdup hdb]
        have hnotin : c ∉ watch.watchRequests.map (fun r => r.callerId) :=
          not_mem_map_of_all_false (any_false_of_not hdup)
        have hmemdb : watch.watchRequests = ex.watch_requests.map rowToReq := by
          have hc2 : memList mem t = dbList db t := (h.conv t).2
          simpa [memList, dbList, hw, hdb] using hc2
        refine ⟨?_, ?_, ?_, ?_, ?_⟩
        · refine memUniq_set h.uniq ?_
          intro u hu
          obtain rfl := Option.some.inj hu
          simp only [List.map_append, List.map_cons, List.map_nil]
          rw [(List.perm_append_singleton _ _).nodup_iff, List.nodup_cons]
          exact ⟨hnotin, h.uniq t watch hw⟩
        · refine memKeyed_set h.keyed ?_
          intro u hu
          obtain rfl := Option.some.inj hu
          exact h.keyed t watch hw
        · refine memNonEmpty_set h.nonEmpty ?_
          intro u hu
          obtain rfl := Option.some.inj hu
          simp
        · refine conv_of_pointwise (fun k' => rfl) h.conv rfl ?_
          simp [hmemdb, rowToReq_mkRow]
        · refine dbInv_of_pointwise (fun k' => rfl) (Nat.le_succ _) h.dbInv ?_
          intro u hu
          obtain rfl := Option.some.inj hu
          obtain ⟨hold, hbound⟩ := h.dbInv t ex hdb
          constructor
          · simp only [List.map_append, List.map_cons, List.map_nil]
            rw [(List.perm_append_singleton _ _).nodup_iff, List.nodup_cons]
            refine ⟨?_, hold⟩
            intro hmem2
            obtain ⟨r, hr, hrid⟩ := List.mem_map.1 hmem2
            have := hbound r hr
            rw [hrid] at this
            exact absurd this (by simp [mkRow])
          · intro r hr
            rcases List.mem_append.1 hr with hr | hr
            · exact Nat.lt_succ_of_lt (hbound r hr)
            · simp only [List.mem_singleton] at hr
              subst hr
              simp [mkRow]
  | none =>
    have hpres : (mem t).isSome = (db.users t).isSome := (h.conv t).1
    rw [hw] at hpres
    cases hdb : db.users t with
    | some ex => rw [hdb] at hpres; simp at hpres
    | none =>
      rw [executeWatch_create hw hdb]
      refine ⟨?_, ?_, ?_, ?_, ?_⟩
      · refine memUniq_set h.uniq ?_
        intro u hu
        obtain rfl := Option.some.inj hu
        simp
      · refine memKeyed_set h.keyed ?_
        intro u hu
        obtain rfl := Option.some.inj hu
        rfl
      · refine memNonEmpty_set h.nonEmpty ?_
        intro u hu
        obtain rfl := Option.some.inj hu
        simp
      · refine conv_of_pointwise (fun k' => rfl) h.conv rfl ?_
        simp [rowToReq_mkRow]
      · refine dbInv_of_pointwise (fun k' => rfl) (Nat.le_succ _) h.dbInv ?_
        intro u hu
        obtain rfl := Option.some.inj hu
        refine ⟨by simp, ?_⟩
        intro r hr
        simp only [List.mem_singleton] at hr
        subst hr
        simp [mkRow]

/-- An unwatch command preserves the reachable-state invariant. -/
theorem step_unwatch_good {t c : String} {mem : Mem} {db : Db}
    (h : GoodState (mem, db)) :
    GoodState (step (mem, db) (.unwatch t c)) := by
  simp only [step]
  cases hw : mem t with
  | none =>
    rw [deleteWatchRequest_noEntry hw]
    exact h
  | some watch =>
    cases hfind : watch.watchRequests.findIdx? (fun r => r.callerId == c) with
    | none =>
      rw [deleteWatchRequest_noMatch hw hfind]
      exact h
    | some i =>
      rw [deleteWatchRequest_found hw hfind]
      obtain ⟨l1, a, l2, hsplit, hpa, hl1, hlen, herase⟩ :=
        findIdx?_some_decomp hfind
      have hpres : (mem t).isSome = (db.users t).isSome := (h.conv t).1
      rw [hw] at hpres
      cases hdb : db.users t with
      | none => rw [hdb] at hpres; simp at hpres
      | some du =>
        have hmemdb : watch.watchRequests = du.watch_requests.map rowToReq := by
          have hc2 : memList mem t = dbList db t := (h.conv t).2
          simpa [memList, dbList, hw, hdb] using hc2
        have hmap : du.watch_requests.map rowToReq = l1 ++ a :: l2 := by
          rw [← hmemdb, hsplit]
        obtain ⟨R1, r2, hru, hR1map, hr2map⟩ := List.map_eq_append_iff.1 hmap
        obtain ⟨rd, R2, hr2, hrdmap, hR2map⟩ := List.map_eq_cons_iff.1 hr2map
        have hdusplit : du.watch_requests = R1 ++ rd :: R2 := by
          rw [hru, hr2]
        have hrd : (rd.caller_id == c) = true := by
          have : rd.caller_id = a.callerId := by rw [← hrdmap]; rfl
          rw [this]
          exact hpa
        have hR1 : ∀ r ∈ R1, (r.caller_id == c) = false := by
          intro r hr
          have hmem2 : rowToReq r ∈ l1 := by
            rw [← hR1map]
            exact List.mem_map_of_mem rowToReq hr
          have := hl1 (rowToReq r) hmem2
          simpa [rowToReq] using this
        have hids := (h.dbInv t du hdb).1
        rw [dbDelete_found hdb hdusplit hids hrd hR1]
        have hlenmap : du.watch_requests.length = l1.length + (l2.length + 1) := by
          rw [hdusplit]
          have h1 : R1.length = l1.length := by
            rw [← hR1map, List.length_map]
          have h2 : R2.length = l2.length := by
            rw [← hR2map, List.length_map]
          simp [h1, h2]
        rw [herase]
        by_cases hemp : (l1 ++ l2).length = 0
        · rw [if_pos hemp]
          have hl1nil : l1 = [] := by
            simp only [List.length_append] at hemp
            exact List.length_eq_zero.1 (Nat.eq_zero_of_add_eq_zero_right hemp)
          have hl2nil : l2 = [] := by
            simp only [List.length_append] at hemp
            exact List.length_eq_zero.1 (Nat.eq_zero_of_add_eq_zero_left hemp)
          have hle : du.watch_requests.length ≤ 1 := by
            rw [hlenmap, hl1nil, hl2nil]
            simp
          rw [if_pos hle]
          refine ⟨?_, ?_, ?_, ?_, ?_⟩
          · exact memUniq_set h.uniq (fun u hu => Option.noConfusion hu)
          · exact memKeyed_set h.keyed (fun u hu => Option.noConfusion hu)
          · exact memNonEmpty_set h.nonEmpty (fun u hu => Option.noConfusion hu)
          · refine conv_of_pointwise_none ?_ h.conv
            intro k'
            by_cases hk : k' = t
            · simp [Db.setUser_apply, hk]
            · simp [Db.setUser_apply, hk]
          · have husers : ∀ k',
                ((db.setUser t
                  (some { du with watch_requests := R1 ++ R2 })).setUser t
                    none).users k' = if k' = t then none else db.users k' := by
              intro k'
              by_cases hk : k' = t
              · simp [Db.setUser_apply, hk]
              · simp [Db.setUser_apply, hk]
            exact dbInv_of_pointwise husers (le_refl _) h.dbInv
              (fun u hu => Option.noConfusion hu)
        · rw [if_neg hemp]
          have hgt : ¬du.watch_requests.length ≤ 1 := by
            rw [hlenmap]
            simp only [List.length_append] at hemp
            omega
          rw [if_neg hgt]
          have hsub : (l1 ++ l2).Sublist (l1 ++ a :: l2) :=
            List.Sublist.append_left (List.sublist_cons_self a l2) l1
          have hsubrows : (R1 ++ R2).Sublist du.watch_requests := by
            rw [hdusplit]
            exact List.Sublist.append_left (List.sublist_cons_self rd R2) R1
          refine ⟨?_, ?_, ?_, ?_, ?_⟩
          · refine memUniq_set h.uniq ?_
            intro u hu
            obtain rfl := Option.some.inj hu
            have horig := h.uniq t watch hw
            rw [hsplit] at horig
            exact List.Nodup.sublist
              (List.Sublist.map (fun r => r.callerId) hsub) horig
          · refine memKeyed_set h.keyed ?_
            intro u hu
            obtain rfl := Option.some.inj hu
            exact h.keyed t watch hw
          · refine memNonEmpty_set h.nonEmpty ?_
            intro u hu
            obtain rfl := Option.some.inj hu
            simp only [ne_eq]
            intro hnil
            rw [hnil] at hemp
            simp at hemp
          · refine conv_of_pointwise (fun k' => rfl) h.conv rfl ?_
            simp only [Option.map_some', Option.getD_some, List.map_append]
            rw [hR1map, hR2map]
          · refine dbInv_of_pointwise (fun k' => rfl) (le_refl _) h.dbInv ?_
            intro u hu
            obtain rfl := Option.some.inj hu
            obtain ⟨h1, h2⟩ := h.dbInv t du hdb
            exact ⟨List.Nodup.sublist
                (List.Sublist.map (fun r => r.id) hsubrows) h1,
              fun r hr => h2 r (hsubrows.mem hr)⟩

/-- Any single registrar call preserves the reachable-state invariant. -/
theorem step_good {s : Mem × Db} (h : GoodState s) (op : Op) :
    GoodState (step s op) := by
  obtain ⟨mem, db⟩ := s
  cases op with
  | watch t n c ch => exact step_watch_good h
  | unwatch t c => exact step_unwatch_good h

/-- The empty state satisfies the invariant. -/
theorem state0_good : GoodState state0 := by
  refine ⟨?_, ?_, ?_, ?_, ?_⟩
  · intro t u h
    exact Option.noConfusion h
  · intro t u h
    exact Option.noConfusion h
  · intro t u h
    exact Option.noConfusion h
  · intro t
    exact ⟨rfl, rfl⟩
  · intro t u h
    exact Option.noConfusion h

/-- Folding registrar calls preserves the invariant. -/
theorem foldl_good : ∀ (ops : List Op) (s : Mem × Db), GoodState s →
    GoodState (ops.foldl step s)
  | [], _, h => h
  | op :: rest, s, h => foldl_good rest (step s op) (step_good h op)

/-- Every state reachable by registrar calls from the empty state satisfies
the invariant. -/
theorem run_good (ops : List Op) : GoodState (run ops) :=
  foldl_good ops state0 state0_good

/-! ## Memory-side effects of a single deletion -/

/-- After erasing the first match from a duplicate-free list, no match
remains. -/
theorem erased_no_match {l1 l2 : List WatchRequest} {a : WatchRequest}
    {c : String}
    (hnd : (((l1 ++ a :: l2).map (fun r => r.callerId)).Nodup))
    (hpa : (a.callerId == c) = true)
    (hl1 : ∀ b ∈ l1, (b.callerId == c) = false) :
    ∀ r ∈ l1 ++ l2, (r.callerId == c) = false := by
  have hceq : a.callerId = c := by simpa using hpa
  rw [List.map_append, List.map_cons, List.nodup_middle, List.nodup_cons,
    ← List.map_append] at hnd
  intro r hr
  rcases List.mem_append.1 hr with hr1 | hr2
  · exact hl1 r hr1
  · by_contra hcon
    have hrc : r.callerId = c := by
      cases hb : (r.callerId == c) with
      | true => simpa using hb
      | false => rw [hb] at hcon; exact absurd rfl hcon
    exact hnd.1 (hceq ▸ hrc ▸
      List.mem_map_of_mem (fun r => r.callerId) (List.mem_append_right l1 hr2))

/-- `deleteWatchRequest` does not touch other index keys. -/
theorem delete_mem_other {t c t' : String} {mem : Mem} {db : Db}
    (ht : t' ≠ t) : (deleteWatchRequest t c mem db).2.1 t' = mem t' := by
  cases hw : mem t with
  | none => rw [deleteWatchRequest_noEntry hw]
  | some watch =>
    cases hfind :
        watch.watchRequests.findIdx? (fun r => r.callerId == c) with
    | none => rw [deleteWatchRequest_noMatch hw hfind]
    | some i =>
      rw [deleteWatchRequest_found hw hfind]
      by_cases hemp : (watch.watchRequests.eraseIdx i).length = 0
      · simp [hemp, Mem.set_apply, ht]
      · simp [hemp, Mem.set_apply, ht]

/-- Reading `hasReq` through a known entry. -/
theorem hasReq_entry {mem : Mem} {t c : String} {u : WatchedUser}
    (hw : mem t = some u) :
    hasReq mem t c = u.watchRequests.any (fun r => r.callerId == c) := by
  unfold hasReq
  rw [hw]

/-- Reading `hasReq` through a missing entry. -/
theorem hasReq_none {mem : Mem} {t c : String} (hw : mem t = none) :
    hasReq mem t c = false := by
  unfold hasReq
  rw [hw]

/-- `hasReq` after a pointwise update, at the updated key. -/
theorem hasReq_set_self (mem : Mem) (k : String) (v : Option WatchedUser)
    (c : String) :
    hasReq (mem.set k v) k c =
      (match v with
       | some u => u.watchRequests.any (fun r => r.callerId == c)
       | none => false) := by
  unfold hasReq Mem.set
  simp

/-- `hasReq` after a pointwise update, at another key. -/
theorem hasReq_set_other {t' k : String} (mem : Mem) (v : Option WatchedUser)
    (c : String) (ht : t' ≠ k) :
    hasReq (mem.set k v) t' c = hasReq mem t' c := by
  unfold hasReq Mem.set
  simp [ht]

/-- The in-memory index produced by `deleteWatchRequest` in the found
branch, as a standalone equation. -/
theorem delete_found_mem {t c : String} {mem : Mem} {db : Db}
    {watch : WatchedUser} {i : Nat} (hw : mem t = some watch)
    (hfind : watch.watchRequests.findIdx? (fun r => r.callerId == c) =
      some i) :
    (deleteWatchRequest t c mem db).2.1 =
      if (watch.watchRequests.eraseIdx i).length = 0 then
        mem.set t none
      else
        mem.set t
          (some { watch with
                  watchRequests := watch.watchRequests.eraseIdx i }) := by
  rw [deleteWatchRequest_found hw hfind]

/-- `deleteWatchRequest` never adds a request: presence after implies
presence before. -/
theorem delete_hasReq_mono {t c t2 c2 : String} {mem : Mem} {db : Db}
    (h : hasReq (deleteWatchRequest t c mem db).2.1 t2 c2 = true) :
    hasReq mem t2 c2 = true := by
  cases hw : mem t with
  | none => rwa [deleteWatchRequest_noEntry hw] at h
  | some watch =>
    cases hfind :
        watch.watchRequests.findIdx? (fun r => r.callerId == c) with
    | none => rwa [deleteWatchRequest_noMatch hw hfind] at h
    | some i =>
      rw [delete_found_mem hw hfind] at h
      by_cases ht2 : t2 = t
      · subst ht2
        rw [hasReq_entry hw]
        by_cases hemp : (watch.watchRequests.eraseIdx i).length = 0
        · rw [if_pos hemp, hasReq_set_self] at h
          exact absurd h (by simp)
        · rw [if_neg hemp, hasReq_set_self] at h
          simp only at h
          obtain ⟨r, hr, hrc⟩ := List.any_eq_true.1 h
          exact List.any_eq_true.2
            ⟨r, (List.eraseIdx_sublist watch.watchRequests i).mem hr, hrc⟩
      · by_cases hemp : (watch.watchRequests.eraseIdx i).length = 0
        · rwa [if_pos hemp, hasReq_set_other mem none c2 ht2] at h
        · rwa [if_neg hemp, hasReq_set_other mem _ c2 ht2] at h

/-- After deleting caller `c` on target `t` from a duplicate-free index, no
request by `c` on `t` remains. -/
theorem delete_hasReq_self {t c : String} {mem : Mem} {db : Db}
    (hu : MemUniq mem) :
    hasReq (deleteWatchRequest t c mem db).2.1 t c = false := by
  cases hw : mem t with
  | none =>
    rw [deleteWatchRequest_noEntry hw]
    exact hasReq_none hw
  | some watch =>
    cases hfind :
        watch.watchRequests.findIdx? (fun r => r.callerId == c) with
    | none =>
      rw [deleteWatchRequest_noMatch hw hfind]
      rw [hasReq_entry hw]
      rw [List.findIdx?_eq_none_iff] at hfind
      cases hany : watch.watchRequests.any (fun r => r.callerId == c) with
      | false => rfl
      | true =>
        obtain ⟨r, hr, hrc⟩ := List.any_eq_true.1 hany
        rw [hfind r hr] at hrc
        exact absurd hrc (by simp)
    | some i =>
      rw [delete_found_mem hw hfind]
      obtain ⟨l1, a, l2, hsplit, hpa, hl1, hlen, herase⟩ :=
        findIdx?_some_decomp hfind
      by_cases hemp : (watch.watchRequests.eraseIdx i).length = 0
      · rw [if_pos hemp, hasReq_set_self]
      · rw [if_neg hemp, hasReq_set_self]
        simp only
        have hnd := hu t watch hw
        rw [hsplit] at hnd
        have hnomatch := erased_no_match hnd hpa hl1
        cases hany : (watch.watchRequests.eraseIdx i).any
            (fun r => r.callerId == c) with
        | false => rfl
        | true =>
          obtain ⟨r, hr, hrc⟩ := List.any_eq_true.1 hany
          rw [herase] at hr
          rw [hnomatch r hr] at hrc
          exact absurd hrc (by simp)

/-- Deleting one caller's request does not change whether a different
caller has a request on the same target. -/
theorem delete_hasReq_other {t c c2 : String} {mem : Mem} {db : Db}
    (hc2 : c2 ≠ c) :
    hasReq (deleteWatchRequest t c mem db).2.1 t c2 = hasReq mem t c2 := by
  cases hw : mem t with
  | none => rw [deleteWatchRequest_noEntry hw]
  | some watch =>
    cases hfind :
        watch.watchRequests.findIdx? (fun r => r.callerId == c) with
    | none => rw [deleteWatchRequest_noMatch hw hfind]
    | some i =>
      rw [delete_found_mem hw hfind]
      obtain ⟨l1, a, l2, hsplit, hpa, hl1, hlen, herase⟩ :=
        findIdx?_some_decomp hfind
      have hac : a.callerId = c := by simpa using hpa
      have hane : (a.callerId == c2) = false := by
        rw [hac]
        exact beq_false_of_ne (Ne.symm hc2)
      by_cases hemp : (watch.watchRequests.eraseIdx i).length = 0
      · rw [if_pos hemp, hasReq_set_self, hasReq_entry hw]
        rw [herase] at hemp
        have h1 : l1 = [] := by
          simp only [List.length_append] at hemp
          exact List.length_eq_zero.1 (Nat.eq_zero_of_add_eq_zero_right hemp)
        have h2 : l2 = [] := by
          simp only [List.length_append] at hemp
          exact List.length_eq_zero.1 (Nat.eq_zero_of_add_eq_zero_left hemp)
        rw [hsplit, h1, h2]
        simp [hane]
      · rw [if_neg hemp, hasReq_set_self, hasReq_entry hw]
        simp only
        rw [herase, hsplit]
        simp only [List.any_append, List.any_cons, hane]
        simp

/-- Deletion preserves per-target caller uniqueness (memory side only). -/
theorem delete_memUniq {t c : String} {mem : Mem} {db : Db}
    (h : MemUniq mem) : MemUniq (deleteWatchRequest t c mem db).2.1 := by
  cases hw : mem t with
  | none => rw [deleteWatchRequest_noEntry hw]; exact h
  | some watch =>
    cases hfind :
        watch.watchRequests.findIdx? (fun r => r.callerId == c) with
    | none => rw [deleteWatchRequest_noMatch hw hfind]; exact h
    | some i =>
      rw [delete_found_mem hw hfind]
      by_cases hemp : (watch.watchRequests.eraseIdx i).length = 0
      · rw [if_pos hemp]
        exact memUniq_set h (fun u hu => Option.noConfusion hu)
      · rw [if_neg hemp]
        refine memUniq_set h ?_
        intro u hu
        obtain rfl := Option.some.inj hu
        exact List.Nodup.sublist
          (List.Sublist.map (fun r => r.callerId)
            (List.eraseIdx_sublist watch.watchRequests i))
          (h t watch hw)

/-- Deletion preserves the key-consistency of index entries. -/
theorem delete_memKeyed {t c : String} {mem : Mem} {db : Db}
    (h : MemKeyed mem) : MemKeyed (deleteWatchRequest t c mem db).2.1 := by
  cases hw : mem t with
  | none => rw [deleteWatchRequest_noEntry hw]; exact h
  | some watch =>
    cases hfind :
        watch.watchRequests.findIdx? (fun r => r.callerId == c) with
    | none => rw [deleteWatchRequest_noMatch hw hfind]; exact h
    | some i =>
      rw [delete_found_mem hw hfind]
      by_cases hemp : (watch.watchRequests.eraseIdx i).length = 0
      · rw [if_pos hemp]
        exact memKeyed_set h (fun u hu => Option.noConfusion hu)
      · rw [if_neg hemp]
        refine memKeyed_set h ?_
        intro u hu
        obtain rfl := Option.some.inj hu
        exact h t watch hw

/-! ## Send-counting helpers -/

theorem sendsFor_append (t c : String) (s1 s2 : List Send) :
    sendsFor t c (s1 ++ s2) = sendsFor t c s1 + sendsFor t c s2 := by
  unfold sendsFor
  rw [List.filter_append, List.length_append]

theorem sendsFor_nil (t c : String) : sendsFor t c [] = 0 := rfl

theorem sendsFor_single_self (t c : String) (ch : Option String) :
    sendsFor t c [{ callerId := c, targetUserId := t, viaChannel := ch }] = 1 := by
  unfold sendsFor
  simp

theorem sendsFor_single_ne_caller {c c' : String} (t : String)
    (ch : Option String) (T : String) (h : c' ≠ c) :
    sendsFor t c [{ callerId := c', targetUserId := T, viaChannel := ch }] = 0 := by
  unfold sendsFor
  simp [beq_false_of_ne h]

theorem sendsFor_single_ne_target {t T : String} (c c' : String)
    (ch : Option String) (h : t ≠ T) :
    sendsFor t c [{ callerId := c', targetUserId := T, viaChannel := ch }] = 0 := by
  unfold sendsFor
  simp [beq_false_of_ne (Ne.symm h)]

theorem one_le_sendsFor_of_mem {s : Send} {sends : List Send}
    (h : s ∈ sends) : 1 ≤ sendsFor s.targetUserId s.callerId sends := by
  unfold sendsFor
  have : s ∈ sends.filter
      (fun x => x.targetUserId == s.targetUserId && x.callerId == s.callerId) :=
    List.mem_filter.2 ⟨h, by simp⟩
  exact List.length_pos.2 (List.ne_nil_of_mem this)

/-! ## The dispatch callback, characterized -/

/-- Each `nightsWatch` callback either fails a fetch (or has an unusable
method or missing channel id) and leaves everything unchanged, or sends one
notification to its caller and then runs `deleteWatchRequest` for it —
exactly when `resolves` holds. -/
theorem watchCallback_spec (res : Resolver) (T : String) (wr : WatchRequest)
    (mem : Mem) (db : Db) :
    (resolves res T wr = false ∧
      watchCallback res T wr mem db = ([], mem, db)) ∨
    (resolves res T wr = true ∧ ∃ chv : Option String,
      watchCallback res T wr mem db =
        ([{ callerId := wr.callerId, targetUserId := T, viaChannel := chv }],
          (deleteWatchRequest T wr.callerId mem db).2.1,
          (deleteWatchRequest T wr.callerId mem db).2.2.1)) := by
  cases hT : res.fetchUser T with
  | none =>
    left
    constructor
    · unfold resolves
      rw [hT]
      rfl
    · unfold watchCallback
      rw [hT]
  | some tv =>
    by_cases hdm : (wr.notificationMethod == "dm") = true
    · cases hc : res.fetchUser wr.callerId with
      | none =>
        left
        constructor
        · unfold resolves
          rw [hT, hdm]
          simp [hc]
        · unfold watchCallback
          rw [hT]
          simp [hdm, hc]
      | some cv =>
        right
        constructor
        · unfold resolves
          rw [hT, hdm]
          simp [hc]
        · refine ⟨none, ?_⟩
          unfold watchCallback
          rw [hT]
          simp [hdm, hc]
    · by_cases hch : (wr.notificationMethod == "channel") = true
      · cases hg : res.fetchGuild with
        | none =>
          left
          constructor
          · unfold resolves
            rw [hT]
            simp [hdm, hch, hg]
          · unfold watchCallback
            rw [hT]
            simp [hdm, hch, hg]
        | some gv =>
          cases hcid : wr.channelId with
          | none =>
            left
            constructor
            · unfold resolves
              rw [hT]
              simp [hdm, hch, hg, hcid]
            · unfold watchCallback
              rw [hT]
              simp [hdm, hch, hg, hcid]
          | some chId =>
            cases hchan : res.fetchChannel chId with
            | none =>
              left
              constructor
              · unfold resolves
                rw [hT]
                simp [hdm, hch, hg, hcid, hchan]
              · unfold watchCallback
                rw [hT]
                simp [hdm, hch, hg, hcid, hchan]
            | some chv =>
              cases hc : res.fetchUser wr.callerId with
              | none =>
                left
                constructor
                · unfold resolves
                  rw [hT]
                  simp [hdm, hch, hg, hcid, hchan, hc]
                · unfold watchCallback
                  rw [hT]
                  simp [hdm, hch, hg, hcid, hchan, hc]
              | some cv =>
                right
                constructor
                · unfold resolves
                  rw [hT]
                  simp [hdm, hch, hg, hcid, hchan, hc]
                · refine ⟨some chId, ?_⟩
                  unfold watchCallback
                  rw [hT]
                  simp [hdm, hch, hg, hcid, hchan, hc]
      · left
        constructor
        · unfold resolves
          rw [hT]
          simp [hdm, hch]
        · unfold watchCallback
          rw [hT]
          simp [hdm, hch]

/-- Master lemma for running the dispatch callbacks over a snapshot `rs` of
pairwise-distinct callers, all of which have a pending request on `T`:
uniqueness and key-consistency are preserved, other targets are untouched
and get no sends, absent callers are untouched and get no sends, and each
snapshot request is sent exactly once and removed when it resolves, and
sent nothing and kept when it does not. -/
theorem runList_master (res : Resolver) (T : String) :
    ∀ (rs : List WatchRequest) (mem : Mem) (db : Db),
      MemUniq mem → MemKeyed mem →
      ((rs.map (fun r => r.callerId)).Nodup) →
      (∀ r ∈ rs, hasReq mem T r.callerId = true) →
      MemUniq (watchRequestsRun res T rs mem db).2.1 ∧
      MemKeyed (watchRequestsRun res T rs mem db).2.1 ∧
      (∀ t2, t2 ≠ T → (watchRequestsRun res T rs mem db).2.1 t2 = mem t2) ∧
      (∀ t2 c2, t2 ≠ T →
        sendsFor t2 c2 (watchRequestsRun res T rs mem db).1 = 0) ∧
      (∀ c2, (∀ r ∈ rs, r.callerId ≠ c2) →
        hasReq (watchRequestsRun res T rs mem db).2.1 T c2 =
          hasReq mem T c2 ∧
        sendsFor T c2 (watchRequestsRun res T rs mem db).1 = 0) ∧
      (∀ r ∈ rs,
        (resolves res T r = true →
          sendsFor T r.callerId (watchRequestsRun res T rs mem db).1 = 1 ∧
          hasReq (watchRequestsRun res T rs mem db).2.1 T r.callerId =
            false) ∧
        (resolves res T r = false →
          sendsFor T r.callerId (watchRequestsRun res T rs mem db).1 = 0 ∧
          hasReq (watchRequestsRun res T rs mem db).2.1 T r.callerId =
            true)) := by
  intro rs
  induction rs with
  | nil =>
    intro mem db hu hk hnd hall
    refine ⟨hu, hk, fun t2 _ => rfl, fun t2 c2 _ => rfl,
      fun c2 _ => ⟨rfl, rfl⟩, fun r hr => absurd hr (List.not_mem_nil r)⟩
  | cons wr rest ih =>
    intro mem db hu hk hnd hall
    rw [List.map_cons, List.nodup_cons] at hnd
    obtain ⟨hnotin, hndtail⟩ := hnd
    have hne_rest : ∀ r ∈ rest, r.callerId ≠ wr.callerId := by
      intro r hr hcon
      exact hnotin (hcon ▸ List.mem_map_of_mem (fun r => r.callerId) hr)
    rcases watchCallback_spec res T wr mem db with ⟨hres, heq⟩ |
      ⟨hres, chv, heq⟩
    · simp only [watchRequestsRun, heq, List.nil_append]
      have IH := ih mem db hu hk hndtail
        (fun r hr => hall r (List.mem_cons_of_mem wr hr))
      obtain ⟨iu, ik, imo, iso, icp, ipr⟩ := IH
      refine ⟨iu, ik, imo, iso, ?_, ?_⟩
      · intro c2 hc2
        exact icp c2 (fun r hr => hc2 r (List.mem_cons_of_mem wr hr))
      · intro r hr
        rcases List.mem_cons.1 hr with rfl | hr2
        · constructor
          · intro hcon
            rw [hres] at hcon
            exact absurd hcon (by simp)
          · intro _
            have := icp r.callerId (hne_rest)
            exact ⟨this.2, this.1.trans (hall r (List.mem_cons_self r rest))⟩
        · exact ipr r hr2
    · simp only [watchRequestsRun, heq]
      have hu1 : MemUniq (deleteWatchRequest T wr.callerId mem db).2.1 :=
        delete_memUniq hu
      have hk1 : MemKeyed (deleteWatchRequest T wr.callerId mem db).2.1 :=
        delete_memKeyed hk
      have hall1 : ∀ r ∈ rest,
          hasReq (deleteWatchRequest T wr.callerId mem db).2.1 T
            r.callerId = true := by
        intro r hr
        rw [delete_hasReq_other (hne_rest r hr)]
        exact hall r (List.mem_cons_of_mem wr hr)
      have IH := ih (deleteWatchRequest T wr.callerId mem db).2.1
        (deleteWatchRequest T wr.callerId mem db).2.2.1 hu1 hk1 hndtail hall1
      obtain ⟨iu, ik, imo, iso, icp, ipr⟩ := IH
      refine ⟨iu, ik, ?_, ?_, ?_, ?_⟩
      · intro t2 ht2
        rw [imo t2 ht2]
        exact delete_mem_other ht2
      · intro t2 c2 ht2
        rw [sendsFor_append, sendsFor_single_ne_target c2 wr.callerId chv ht2,
          iso t2 c2 ht2]
      · intro c2 hc2
        have hcw : wr.callerId ≠ c2 := hc2 wr (List.mem_cons_self wr rest)
        have := icp c2 (fun r hr => hc2 r (List.mem_cons_of_mem wr hr))
        constructor
        · rw [this.1, delete_hasReq_other (Ne.symm hcw)]
        · rw [sendsFor_append, sendsFor_single_ne_caller T chv T hcw, this.2]
      · intro r hr
        rcases List.mem_cons.1 hr with rfl | hr2
        · constructor
          · intro _
            have := icp r.callerId hne_rest
            constructor
            · rw [sendsFor_append, sendsFor_single_self, this.2]
            · rw [this.1]
              exact delete_hasReq_self hu
          · intro hcon
            rw [hres] at hcon
            exact absurd hcon (by simp)
        · have hrw : r.callerId ≠ wr.callerId := hne_rest r hr2
          have := ipr r hr2
          constructor
          · intro hres2
            obtain ⟨hs, hh⟩ := this.1 hres2
            exact ⟨by
              rw [sendsFor_append,
                sendsFor_single_ne_caller T chv T (Ne.symm hrw), hs],
              hh⟩
          · intro hres2
            obtain ⟨hs, hh⟩ := this.2 hres2
            exact ⟨by
              rw [sendsFor_append,
                sendsFor_single_ne_caller T chv T (Ne.symm hrw), hs],
              hh⟩

/-- `hasReq` only looks at the index entry of its target. -/
theorem hasReq_congr {mem1 mem2 : Mem} {t : String}
    (h : mem1 t = mem2 t) (c : String) :
    hasReq mem1 t c = hasReq mem2 t c := by
  unfold hasReq
  rw [h]

/-- Token argument for one dispatched event: the sends it produces for a
pair (target, caller) plus the requests still pending for that pair never
exceed the requests that were pending before, and the index invariants are
preserved. -/
theorem nightsWatch_token (res : Resolver) (a : String) (g : Bool)
    (mem : Mem) (db : Db) (hu : MemUniq mem) (hk : MemKeyed mem) :
    MemUniq (nightsWatch res a g mem db).2.1 ∧
    MemKeyed (nightsWatch res a g mem db).2.1 ∧
    (∀ t c, sendsFor t c (nightsWatch res a g mem db).1 +
      (hasReq (nightsWatch res a g mem db).2.1 t c).toNat ≤
      (hasReq mem t c).toNat) := by
  cases hw : mem a with
  | none =>
    unfold nightsWatch
    rw [hw]
    exact ⟨hu, hk, fun t c => by simp [sendsFor_nil]⟩
  | some watch =>
    unfold nightsWatch
    rw [hw]
    cases g with
    | false => exact ⟨hu, hk, fun t c => by simp [sendsFor_nil]⟩
    | true =>
      simp only [if_pos]
      have hnd := hu a watch hw
      have hTa : watch.targetUserId = a := hk a watch hw
      have hall : ∀ r ∈ watch.watchRequests,
          hasReq mem watch.targetUserId r.callerId = true := by
        intro r hr
        rw [hTa, hasReq_entry hw]
        exact List.any_eq_true.2 ⟨r, hr, by simp⟩
      obtain ⟨iu, ik, imo, iso, icp, ipr⟩ :=
        runList_master res watch.targetUserId watch.watchRequests mem db
          hu hk hnd hall
      refine ⟨iu, ik, ?_⟩
      intro t c
      by_cases ht : t = watch.targetUserId
      · subst ht
        by_cases hex : ∃ r ∈ watch.watchRequests, r.callerId = c
        · obtain ⟨r, hr, hrc⟩ := hex
          have hbase : hasReq mem watch.targetUserId c = true := by
            rw [hTa, hasReq_entry hw]
            exact List.any_eq_true.2 ⟨r, hr, by simp [hrc]⟩
          rw [hbase]
          cases hres : resolves res watch.targetUserId r with
          | true =>
            obtain ⟨hs, hh⟩ := (ipr r hr).1 hres
            rw [hrc] at hs hh
            rw [hs, hh]
            simp
          | false =>
            obtain ⟨hs, hh⟩ := (ipr r hr).2 hres
            rw [hrc] at hs hh
            rw [hs, hh]
            simp
        · have hnone : ∀ r ∈ watch.watchRequests, r.callerId ≠ c := by
            intro r hr hrc
            exact hex ⟨r, hr, hrc⟩
          obtain ⟨hp, hs⟩ := icp c hnone
          rw [hp, hs]
          omega
      · obtain hs := iso t c ht
        rw [hs, hasReq_congr (imo t ht) c]
        omega

/-- Token argument over a whole sequence of dispatched events. -/
theorem runDispatches_master :
    ∀ (evs : List DispatchEv) (mem : Mem) (db : Db), MemUniq mem →
      MemKeyed mem →
      MemUniq (runDispatches evs mem db).2.1 ∧
      MemKeyed (runDispatches evs mem db).2.1 ∧
      (∀ t c, sendsFor t c (runDispatches evs mem db).1 +
        (hasReq (runDispatches evs mem db).2.1 t c).toNat ≤
        (hasReq mem t c).toNat)
  | [], mem, db, hu, hk => by
    simp only [runDispatches]
    exact ⟨hu, hk, fun t c => by rw [sendsFor_nil]; omega⟩
  | e :: rest, mem, db, hu, hk => by
    obtain ⟨nu, nk, ntok⟩ :=
      nightsWatch_token e.res e.authorId e.hasGuild mem db hu hk
    obtain ⟨ru, rk, rtok⟩ := runDispatches_master rest
      (nightsWatch e.res e.authorId e.hasGuild mem db).2.1
      (nightsWatch e.res e.authorId e.hasGuild mem db).2.2 nu nk
    simp only [runDispatches]
    refine ⟨ru, rk, ?_⟩
    intro t c
    rw [sendsFor_append]
    have h1 := ntok t c
    have h2 := rtok t c
    omega

/-! ## Additional list facts and branch equations used by the claims -/

/-- A list whose callers are pairwise distinct holds at most one request
per caller. -/
theorem filter_length_le_one_of_nodup_map {l : List WatchRequest}
    {c : String} (h : ((l.map (fun r => r.callerId)).Nodup)) :
    (l.filter (fun r => r.callerId == c)).length ≤ 1 := by
  induction l with
  | nil => simp
  | cons x xs ih =>
    rw [List.map_cons, List.nodup_cons] at h
    obtain ⟨hx, hxs⟩ := h
    by_cases hc : (x.callerId == c) = true
    · have hceq : x.callerId = c := by simpa using hc
      have hnil : xs.filter (fun r => r.callerId == c) = [] := by
        rw [List.filter_eq_nil_iff]
        intro r hr hrc
        have hreq : r.callerId = c := by simpa using hrc
        exact hx (hceq ▸ hreq ▸
          List.mem_map_of_mem (fun r => r.callerId) hr)
      rw [List.filter_cons]
      simp [hc, hnil]
    · rw [List.filter_cons]
      simp only [hc, if_neg, Bool.false_eq_true, not_false_eq_true]
      exact ih hxs

/-- The success branch of `executeWatch` on an existing target, without any
assumption on the store. -/
theorem executeWatch_nodup_eq {t n c : String} {ch : Option String}
    {mem : Mem} {db : Db} {watch : WatchedUser} (hw : mem t = some watch)
    (hdup : watch.watchRequests.any (fun r => r.callerId == c) = false) :
    executeWatch t n c ch mem db =
      (dbAddOrUpdateWatchedUser t
        (watch.watchRequests ++ [newReq n c ch]) c db).map
        (fun db1 => (true,
          mem.set t (some { watch with
            watchRequests := watch.watchRequests ++ [newReq n c ch] }),
          db1, true)) := by
  unfold executeWatch
  rw [hw]
  simp [hdup, newReq]

/-- The success branch of `executeWatch` on a fresh target, without any
assumption on the store. -/
theorem executeWatch_fresh_eq {t n c : String} {ch : Option String}
    {mem : Mem} {db : Db} (hw : mem t = none) :
    executeWatch t n c ch mem db =
      (dbAddOrUpdateWatchedUser t [newReq n c ch] c db).map
        (fun db1 => (true,
          mem.set t (some { targetUserId := t
                            watchRequests := [newReq n c ch] }),
          db1, true)) := by
  unfold executeWatch
  rw [hw]
  simp [newReq]

/-! ## Concrete states used by the witnesses -/

/-- The single request registered by the witness scenarios. -/
def reqC1 : WatchRequest :=
  { notificationMethod := "dm", channelId := none, callerId := "c1" }

/-- A second, channel-method request. -/
def reqC2 : WatchRequest :=
  { notificationMethod := "channel", channelId := some "ch1",
    callerId := "c2" }

/-- Index entry holding exactly the request of caller c1 on target u1. -/
def uEx : WatchedUser := { targetUserId := "u1", watchRequests := [reqC1] }

/-- Index after registering c1 on u1 from the empty state. -/
def memEx : Mem := (run [Op.watch "u1" "dm" "c1" none]).1

/-- Store after registering c1 on u1 from the empty state. -/
def dbEx : Db := (run [Op.watch "u1" "dm" "c1" none]).2

/-- Index entry holding the requests of c1 and c2 on u1. -/
def uEx2 : WatchedUser :=
  { targetUserId := "u1", watchRequests := [reqC1, reqC2] }

/-- Index after registering c1 then c2 on u1 from the empty state. -/
def memEx2 : Mem :=
  (run [Op.watch "u1" "dm" "c1" none,
    Op.watch "u1" "channel" "c2" (some "ch1")]).1

/-- Store after registering c1 then c2 on u1 from the empty state. -/
def dbEx2 : Db :=
  (run [Op.watch "u1" "dm" "c1" none,
    Op.watch "u1" "channel" "c2" (some "ch1")]).2

/-! ## The claims -/

/-- C1. Uniqueness (P1): along every sequence of `executeWatch` and
`deleteWatchRequest` calls from the empty index, each target's entry holds
at most one request per caller; and a second `executeWatch` for a pair
already present returns `false` with the index and store untouched and the
persistence helper not invoked. -/
theorem C1_uniqueness :
    (∀ (ops : List Op) (t c : String) (u : WatchedUser),
      (run ops).1 t = some u →
      (u.watchRequests.filter (fun r => r.callerId == c)).length ≤ 1) ∧
    (∀ (t n c : String) (ch : Option String) (mem : Mem) (db : Db)
      (u : WatchedUser), mem t = some u →
      (∃ r ∈ u.watchRequests, r.callerId = c) →
      executeWatch t n c ch mem db = some (false, mem, db, false)) := by
  constructor
  · intro ops t c u hu
    exact filter_length_le_one_of_nodup_map ((run_good ops).uniq t u hu)
  · intro t n c ch mem db u hw hex
    obtain ⟨r, hr, hrc⟩ := hex
    exact executeWatch_dup hw (List.any_eq_true.2 ⟨r, hr, by simp [hrc]⟩)

/-- Witness for C1 at a concrete state: re-adding c1 on u1 is rejected
without any mutation. -/
theorem C1_uniqueness_witness :
    executeWatch "u1" "dm" "c1" none memEx dbEx =
      some (false, memEx, dbEx, false) :=
  C1_uniqueness.2 "u1" "dm" "c1" none memEx dbEx uEx (by decide)
    ⟨reqC1, by decide, rfl⟩

/-- C3. Persistence convergence (P5): at every state reachable by registrar
calls from the empty state — in particular right after any call that
returned true — presence in the index and in the store agree for every
target, and the persisted rows carry exactly the in-memory request list. -/
theorem C3_persistence_convergence :
    ∀ (ops : List Op) (t : String),
      ((run ops).1 t).isSome = ((run ops).2.users t).isSome ∧
      memList (run ops).1 t = dbList (run ops).2 t :=
  fun ops t => (run_good ops).conv t

/-- C5. Duplicate add is rejected atomically: when the index already holds
a request with the given caller for the target, `executeWatch` returns
false, the index and store are returned unchanged, and the persistence
helper is not invoked. -/
theorem C5_duplicate_atomic :
    ∀ (t n c : String) (ch : Option String) (mem : Mem) (db : Db)
      (u : WatchedUser), mem t = some u →
      u.watchRequests.any (fun r => r.callerId == c) = true →
      executeWatch t n c ch mem db = some (false, mem, db, false) :=
  fun _ _ _ _ _ _ _ hw hdup => executeWatch_dup hw hdup

/-- Witness for C5: re-adding c2 (with a different method) on u1 is
rejected without any mutation or store call. -/
theorem C5_duplicate_atomic_witness :
    executeWatch "u1" "dm" "c2" none memEx2 dbEx2 =
      some (false, memEx2, dbEx2, false) :=
  C5_duplicate_atomic "u1" "dm" "c2" none memEx2 dbEx2 uEx2 (by decide)
    (by decide)

/-- C2. Non-empty aggregate (P2): at every reachable state an index entry
always has a non-empty request list (so an entry exists iff its list is
non-empty); a successful `deleteWatchRequest` drops the entry exactly when
the spliced list became empty; and an entry left by any `executeWatch` call
is never empty. -/
theorem C2_nonempty_aggregate :
    (∀ (ops : List Op) (t : String) (u : WatchedUser),
      (run ops).1 t = some u → u.watchRequests ≠ []) ∧
    (∀ (t c : String) (mem : Mem) (db : Db) (watch : WatchedUser) (i : Nat),
      mem t = some watch →
      watch.watchRequests.findIdx? (fun r => r.callerId == c) = some i →
      ((deleteWatchRequest t c mem db).2.1 t = none ↔
        (watch.watchRequests.eraseIdx i).length = 0)) ∧
    (∀ (t n c : String) (ch : Option String) (mem : Mem) (db : Db)
      (b : Bool) (mem' : Mem) (db' : Db) (dc : Bool) (u : WatchedUser),
      executeWatch t n c ch mem db = some (b, mem', db', dc) →
      mem' t = some u → u.watchRequests ≠ []) := by
  refine ⟨?_, ?_, ?_⟩
  · intro ops t u hu
    exact (run_good ops).nonEmpty t u hu
  · intro t c mem db watch i hw hfind
    rw [delete_found_mem hw hfind]
    by_cases hemp : (watch.watchRequests.eraseIdx i).length = 0
    · rw [if_pos hemp]
      constructor
      · intro _
        exact hemp
      · intro _
        rw [Mem.set_apply, if_pos rfl]
    · rw [if_neg hemp]
      constructor
      · intro hcon
        rw [Mem.set_apply, if_pos rfl] at hcon
        exact Option.noConfusion hcon
      · intro hcon
        exact absurd hcon hemp
  · intro t n c ch mem db b mem' db' dc u he hu'
    cases hw : mem t with
    | some watch =>
      cases hdup : watch.watchRequests.any (fun r => r.callerId == c) with
      | true =>
        rw [executeWatch_dup hw hdup] at he
        simp only [Option.some.injEq, Prod.mk.injEq] at he
        obtain ⟨-, hm, -, -⟩ := he
        rw [← hm, hw] at hu'
        obtain rfl := Option.some.inj hu'
        obtain ⟨r, hr, -⟩ := List.any_eq_true.1 hdup
        exact List.ne_nil_of_mem hr
      | false =>
        rw [executeWatch_nodup_eq hw hdup] at he
        cases hdbr : dbAddOrUpdateWatchedUser t
            (watch.watchRequests ++ [newReq n c ch]) c db with
        | none =>
          rw [hdbr] at he
          simp at he
        | some db1 =>
          rw [hdbr] at he
          simp only [Option.map_some', Option.some.injEq,
            Prod.mk.injEq] at he
          obtain ⟨-, hm, -, -⟩ := he
          rw [← hm, Mem.set_apply, if_pos rfl] at hu'
          obtain rfl := Option.some.inj hu'
          simp
    | none =>
      rw [executeWatch_fresh_eq hw] at he
      cases hdbr : dbAddOrUpdateWatchedUser t [newReq n c ch] c db with
      | none =>
        rw [hdbr] at he
        simp at he
      | some db1 =>
        rw [hdbr] at he
        simp only [Option.map_some', Option.some.injEq, Prod.mk.injEq] at he
        obtain ⟨-, hm, -, -⟩ := he
        rw [← hm, Mem.set_apply, if_pos rfl] at hu'
        obtain rfl := Option.some.inj hu'
        simp

/-- Witness for C2: on the two-request state, removing c1 keeps the entry
(the spliced list is non-empty). -/
theorem C2_nonempty_aggregate_witness :
    (deleteWatchRequest "u1" "c1" memEx2 dbEx2).2.1 "u1" = none ↔
      (uEx2.watchRequests.eraseIdx 0).length = 0 :=
  C2_nonempty_aggregate.2.1 "u1" "c1" memEx2 dbEx2 uEx2 0 (by decide)
    (by decide)

/-- C6. Idempotent removal (P4): with no entry for the target, or no
request by the caller, `deleteWatchRequest` returns false with the index
and store untouched and the persistence helper not invoked; and for an
existing (target, caller) pair in a duplicate-free entry, deleting twice
returns true then false. -/
theorem C6_idempotent_removal :
    (∀ (t c : String) (mem : Mem) (db : Db), mem t = none →
      deleteWatchRequest t c mem db = (false, mem, db, false)) ∧
    (∀ (t c : String) (mem : Mem) (db : Db) (u : WatchedUser),
      mem t = some u → (∀ r ∈ u.watchRequests, (r.callerId == c) = false) →
      deleteWatchRequest t c mem db = (false, mem, db, false)) ∧
    (∀ (t c : String) (mem : Mem) (db : Db) (u : WatchedUser),
      mem t = some u →
      ((u.watchRequests.map (fun r => r.callerId)).Nodup) →
      (∃ r ∈ u.watchRequests, r.callerId = c) →
      (deleteWatchRequest t c mem db).1 = true ∧
      (deleteWatchRequest t c (deleteWatchRequest t c mem db).2.1
        (deleteWatchRequest t c mem db).2.2.1).1 = false) := by
  refine ⟨?_, ?_, ?_⟩
  · intro t c mem db hw
    exact deleteWatchRequest_noEntry hw
  · intro t c mem db u hw hall
    exact deleteWatchRequest_noMatch hw (List.findIdx?_eq_none_iff.2 hall)
  · intro t c mem db u hw hnd hex
    obtain ⟨r, hr, hrc⟩ := hex
    cases hfind : u.watchRequests.findIdx? (fun r => r.callerId == c) with
    | none =>
      rw [List.findIdx?_eq_none_iff] at hfind
      have := hfind r hr
      rw [hrc] at this
      exact absurd this (by simp)
    | some i =>
      obtain ⟨l1, a, l2, hsplit, hpa, hl1, hlen, herase⟩ :=
        findIdx?_some_decomp hfind
      constructor
      · rw [deleteWatchRequest_found hw hfind]
      · rw [delete_found_mem hw hfind]
        by_cases hemp : (u.watchRequests.eraseIdx i).length = 0
        · rw [if_pos hemp]
          have hnone : (mem.set t none) t = none := by
            rw [Mem.set_apply, if_pos rfl]
          rw [deleteWatchRequest_noEntry hnone]
        · rw [if_neg hemp]
          have hentry : (mem.set t
              (some { u with watchRequests := u.watchRequests.eraseIdx i }))
                t =
              some { u with watchRequests := u.watchRequests.eraseIdx i } := by
            rw [Mem.set_apply, if_pos rfl]
          have hnomatch : ∀ r2 ∈ u.watchRequests.eraseIdx i,
              (r2.callerId == c) = false := by
            rw [herase]
            rw [hsplit] at hnd
            exact erased_no_match hnd hpa hl1
          rw [deleteWatchRequest_noMatch hentry
            (List.findIdx?_eq_none_iff.2 hnomatch)]

/-- Witness for C6: deleting (u1, c1) twice from the one-request state
returns true then false. -/
theorem C6_idempotent_removal_witness :
    (deleteWatchRequest "u1" "c1" memEx dbEx).1 = true ∧
    (deleteWatchRequest "u1" "c1" (deleteWatchRequest "u1" "c1" memEx dbEx).2.1
      (deleteWatchRequest "u1" "c1" memEx dbEx).2.2.1).1 = false :=
  C6_idempotent_removal.2.2 "u1" "c1" memEx dbEx uEx (by decide) (by decide)
    ⟨reqC1, by decide, rfl⟩

/-- C7. Successful removal: when a request by the caller exists, the first
matching request — and only it — is spliced out of the target's list, all
other targets are untouched, the entry is dropped exactly when the list
became empty, the store deletion helper is invoked on the prior store, and
the call returns true. -/
theorem C7_successful_removal :
    ∀ (t c : String) (mem : Mem) (db : Db) (watch : WatchedUser) (i : Nat),
      mem t = some watch →
      watch.watchRequests.findIdx? (fun r => r.callerId == c) = some i →
      (deleteWatchRequest t c mem db).1 = true ∧
      (deleteWatchRequest t c mem db).2.2.2 = true ∧
      (deleteWatchRequest t c mem db).2.2.1 =
        dbDeleteWatchRequestOrWatchedUser t c db ∧
      (∀ t', t' ≠ t → (deleteWatchRequest t c mem db).2.1 t' = mem t') ∧
      (deleteWatchRequest t c mem db).2.1 t =
        (if (watch.watchRequests.eraseIdx i).length = 0 then none
         else some { watch with
                     watchRequests := watch.watchRequests.eraseIdx i }) ∧
      (∃ l1 a l2, watch.watchRequests = l1 ++ a :: l2 ∧
        (a.callerId == c) = true ∧ (∀ b ∈ l1, (b.callerId == c) = false) ∧
        watch.watchRequests.eraseIdx i = l1 ++ l2) := by
  intro t c mem db watch i hw hfind
  obtain ⟨l1, a, l2, hsplit, hpa, hl1, hlen, herase⟩ :=
    findIdx?_some_decomp hfind
  refine ⟨by rw [deleteWatchRequest_found hw hfind],
    by rw [deleteWatchRequest_found hw hfind],
    by rw [deleteWatchRequest_found hw hfind],
    ?_, ?_, l1, a, l2, hsplit, hpa, hl1, herase⟩
  · intro t' ht'
    exact delete_mem_other ht'
  · rw [delete_found_mem hw hfind]
    by_cases hemp : (watch.watchRequests.eraseIdx i).length = 0
    · rw [if_pos hemp, if_pos hemp, Mem.set_apply, if_pos rfl]
    · rw [if_neg hemp, if_neg hemp, Mem.set_apply, if_pos rfl]

/-- Witness for C7: removing c1 from the two-request state keeps the entry
with exactly c2's request. -/
theorem C7_successful_removal_witness :
    (deleteWatchRequest "u1" "c1" memEx2 dbEx2).1 = true ∧
    (deleteWatchRequest "u1" "c1" memEx2 dbEx2).2.1 "u1" =
      (if (uEx2.watchRequests.eraseIdx 0).length = 0 then none
       else some { uEx2 with
                   watchRequests := uEx2.watchRequests.eraseIdx 0 }) :=
  ⟨(C7_successful_removal "u1" "c1" memEx2 dbEx2 uEx2 0 (by decide)
      (by decide)).1,
    (C7_successful_removal "u1" "c1" memEx2 dbEx2 uEx2 0 (by decide)
      (by decide)).2.2.2.2.1⟩

/-- Whole-body equation for the store deletion when the aggregate exists. -/
theorem dbDelete_eq {t c : String} {db : Db} {du : DbUser}
    (hdb : db.users t = some du) :
    dbDeleteWatchRequestOrWatchedUser t c db =
      (let db1 :=
        match du.watch_requests.find? (fun r => r.caller_id == c) with
        | some rd =>
          db.setUser t
            (some { du with
                    watch_requests :=
                      du.watch_requests.eraseP (fun r => r.id == rd.id) })
        | none => db
       if du.watch_requests.length ≤ 1 then db1.setUser t none else db1) := by
  unfold dbDeleteWatchRequestOrWatchedUser
  rw [hdb]

/-- Store row of the c1 request as persisted by the witness run. -/
def rowEx : DbRow :=
  { id := 0, notification_method := "dm", channel_id := none,
    caller_id := "c1" }

/-- Persisted aggregate holding one row, owned by caller c2. -/
def duC4 : DbUser :=
  { target_user_id := "u1", created_by := "c2",
    watch_requests :=
      [{ id := 0, notification_method := "dm", channel_id := none,
         caller_id := "c2" }] }

/-- Store whose only aggregate is `duC4`. -/
def dbC4 : Db :=
  { users := fun k => if k = "u1" then some duC4 else none, nextId := 1 }

/-- Counterexample to C4: the aggregate u1 holds exactly one row, by
caller c2; deleting for caller c1 matches no row, so a row remains — yet
the aggregate row is deleted. -/
theorem C4_counterexample :
    dbC4.users "u1" = some duC4 ∧
    duC4.watch_requests.length = 1 ∧
    duC4.watch_requests.filter (fun r => r.caller_id == "c1") = [] ∧
    (dbDeleteWatchRequestOrWatchedUser "u1" "c1" dbC4).users "u1" = none := by
  refine ⟨rfl, rfl, rfl, by decide⟩

/-- C4 (amended). `dbDeleteWatchRequestOrWatchedUser` deletes the aggregate
row exactly when the FETCHED aggregate had at most one request row — also
when no row matched the caller; only when a matching row exists does that
test coincide with "zero rows remain after the row deletion". -/
theorem C4_amended :
    ∀ (t c : String) (db : Db) (du : DbUser), db.users t = some du →
      ((dbDeleteWatchRequestOrWatchedUser t c db).users t = none ↔
        du.watch_requests.length ≤ 1) ∧
      ((du.watch_requests.find? (fun r => r.caller_id == c)).isSome →
        (du.watch_requests.length ≤ 1 ↔
          du.watch_requests.length - 1 = 0)) := by
  intro t c db du hdb
  constructor
  · rw [dbDelete_eq hdb]
    cases hfind : du.watch_requests.find? (fun r => r.caller_id == c) with
    | some rd =>
      simp only
      by_cases hle : du.watch_requests.length ≤ 1
      · rw [if_pos hle]
        constructor
        · intro _
          exact hle
        · intro _
          rw [Db.setUser_apply, if_pos rfl]
      · rw [if_neg hle]
        constructor
        · intro hcon
          rw [Db.setUser_apply, if_pos rfl] at hcon
          exact Option.noConfusion hcon
        · intro hcon
          exact absurd hcon hle
    | none =>
      simp only
      by_cases hle : du.watch_requests.length ≤ 1
      · rw [if_pos hle]
        constructor
        · intro _
          exact hle
        · intro _
          rw [Db.setUser_apply, if_pos rfl]
      · rw [if_neg hle]
        constructor
        · intro hcon
          rw [hdb] at hcon
          exact Option.noConfusion hcon
        · intro hcon
          exact absurd hcon hle
  · intro hfind
    rw [Option.isSome_iff_exists] at hfind
    obtain ⟨rd, hrd⟩ := hfind
    have hmem := List.mem_of_find?_eq_some hrd
    have hpos : 1 ≤ du.watch_requests.length :=
      List.length_pos.2 (List.ne_nil_of_mem hmem)
    omega

/-- Witness for the amended C4 at the counterexample store: the aggregate
row is deleted because the fetched list had one row. -/
theorem C4_amended_witness :
    (dbDeleteWatchRequestOrWatchedUser "u1" "c1" dbC4).users "u1" = none :=
  (C4_amended "u1" "c1" dbC4 duC4 rfl).1.mpr (by decide)

/-- Persisted aggregate for u1 as created by the witness run (one row by
caller c1). -/
def duEx : DbUser :=
  { target_user_id := "u1", created_by := "c1", watch_requests := [rowEx] }

/-- C10. When the persisted aggregate already exists,
`dbAddOrUpdateWatchedUser` creates exactly one new row, built from the LAST
element of the list it was handed, ignoring every earlier element — so the
call is equivalent to passing only that last element, and it is correct
only because `executeWatch` appends the new request at the end. -/
theorem C10_update_persists_only_last :
    ∀ (t : String) (reqs : List WatchRequest) (createdBy : String) (db : Db)
      (ex : DbUser) (r : WatchRequest), db.users t = some ex →
      reqs.getLast? = some r →
      dbAddOrUpdateWatchedUser t reqs createdBy db =
        some { users := fun k' =>
                 if k' = t then
                   some { ex with watch_requests :=
                     ex.watch_requests ++ [mkRow db.nextId r] }
                 else db.users k'
               nextId := db.nextId + 1 } ∧
      dbAddOrUpdateWatchedUser t reqs createdBy db =
        dbAddOrUpdateWatchedUser t [r] createdBy db := by
  intro t reqs createdBy db ex r hdb hlast
  have h1 : dbAddOrUpdateWatchedUser t reqs createdBy db =
      some { users := fun k' =>
               if k' = t then
                 some { ex with watch_requests :=
                   ex.watch_requests ++ [mkRow db.nextId r] }
               else db.users k'
             nextId := db.nextId + 1 } := by
    unfold dbAddOrUpdateWatchedUser
    rw [hdb, hlast]
  have h2 : dbAddOrUpdateWatchedUser t [r] createdBy db =
      some { users := fun k' =>
               if k' = t then
                 some { ex with watch_requests :=
                   ex.watch_requests ++ [mkRow db.nextId r] }
               else db.users k'
             nextId := db.nextId + 1 } := by
    unfold dbAddOrUpdateWatchedUser
    rw [hdb]
    rfl
  exact ⟨h1, h1.trans h2.symm⟩

/-- Witness for C10: handing the two-element list persists the same store
as handing only its last element. -/
theorem C10_update_persists_only_last_witness :
    dbAddOrUpdateWatchedUser "u1" [reqC1, reqC2] "c2" dbEx =
      dbAddOrUpdateWatchedUser "u1" [reqC2] "c2" dbEx :=
  (C10_update_persists_only_last "u1" [reqC1, reqC2] "c2" dbEx duEx reqC2
    (by decide) rfl).2

/-- Literal index used by the dispatch witnesses: u1 watched by c1 (dm)
and c2 (channel ch1). -/
def memW : Mem := fun k => if k = "u1" then some uEx2 else none

/-- Store paired with `memW` in the dispatch witnesses. -/
def dbW : Db :=
  { users := fun k =>
      if k = "u1" then
        some { target_user_id := "u1", created_by := "c1",
               watch_requests :=
                 [rowEx,
                  { id := 1, notification_method := "channel",
                    channel_id := some "ch1", caller_id := "c2" }] }
      else none
    nextId := 2 }

/-- Resolver for the witnesses: fetching user c1 fails, everything else
resolves. -/
def resW : Resolver :=
  { fetchUser := fun u => if u = "c1" then none else some u
    fetchGuild := some "g"
    fetchChannel := fun c => some c }

/-- C8. One-shot delivery (P3): from a duplicate-free, key-consistent
index, any sequence of dispatched events produces at most one notification
per (target, caller) pair, and within one dispatch every send is followed
by the removal of the request it fulfilled. -/
theorem C8_one_shot_delivery :
    ∀ (mem : Mem) (db : Db), MemUniq mem → MemKeyed mem →
      (∀ (evs : List DispatchEv) (t c : String),
        sendsFor t c (runDispatches evs mem db).1 ≤ 1) ∧
      (∀ (res : Resolver) (a : String) (g : Bool),
        ∀ s ∈ (nightsWatch res a g mem db).1,
          hasReq (nightsWatch res a g mem db).2.1 s.targetUserId
            s.callerId = false) := by
  intro mem db hu hk
  constructor
  · intro evs t c
    have h := (runDispatches_master evs mem db hu hk).2.2 t c
    have hb : (hasReq mem t c).toNat ≤ 1 := by
      cases hasReq mem t c <;> simp
    omega
  · intro res a g s hs
    have htok := (nightsWatch_token res a g mem db hu hk).2.2
      s.targetUserId s.callerId
    have hone := one_le_sendsFor_of_mem hs
    have hb : (hasReq mem s.targetUserId s.callerId).toNat ≤ 1 := by
      cases hasReq mem s.targetUserId s.callerId <;> simp
    cases hres : hasReq (nightsWatch res a g mem db).2.1 s.targetUserId
        s.callerId with
    | false => rfl
    | true =>
      rw [hres] at htok
      simp only [Bool.toNat_true] at htok
      omega

/-- Witness for C8: dispatching the same event twice from the two-request
state yields at most one send for (u1, c2). -/
theorem C8_one_shot_delivery_witness :
    sendsFor "u1" "c2"
      (runDispatches [{ res := resW, authorId := "u1", hasGuild := true },
        { res := resW, authorId := "u1", hasGuild := true }] memW dbW).1 ≤
      1 :=
  (C8_one_shot_delivery memW dbW
    (by
      intro t u h
      unfold memW at h
      by_cases ht : t = "u1"
      · rw [if_pos ht] at h
        obtain rfl := Option.some.inj h
        decide
      · rw [if_neg ht] at h
        exact Option.noConfusion h)
    (by
      intro t u h
      unfold memW at h
      by_cases ht : t = "u1"
      · rw [if_pos ht] at h
        obtain rfl := Option.some.inj h
        rw [ht]
        rfl
      · rw [if_neg ht] at h
        exact Option.noConfusion h)).1
    [{ res := resW, authorId := "u1", hasGuild := true },
      { res := resW, authorId := "u1", hasGuild := true }] "u1" "c2"

/-- C9. Resolution failure leaves a request pending: within one dispatch
from a duplicate-free, key-consistent index, a request whose fetches fail
gets no send and stays in the index, while a resolvable request in the same
snapshot gets exactly one send and is removed. -/
theorem C9_resolution_failure :
    ∀ (res : Resolver) (a : String) (mem : Mem) (db : Db)
      (watch : WatchedUser), mem a = some watch → MemUniq mem →
      MemKeyed mem →
      ∀ r ∈ watch.watchRequests,
        (resolves res watch.targetUserId r = false →
          sendsFor watch.targetUserId r.callerId
            (nightsWatch res a true mem db).1 = 0 ∧
          hasReq (nightsWatch res a true mem db).2.1 watch.targetUserId
            r.callerId = true) ∧
        (resolves res watch.targetUserId r = true →
          sendsFor watch.targetUserId r.callerId
            (nightsWatch res a true mem db).1 = 1 ∧
          hasReq (nightsWatch res a true mem db).2.1 watch.targetUserId
            r.callerId = false) := by
  intro res a mem db watch hw hu hk r hr
  have hnw : nightsWatch res a true mem db =
      watchRequestsRun res watch.targetUserId watch.watchRequests mem db := by
    unfold nightsWatch
    rw [hw]
    simp
  rw [hnw]
  have hTa : watch.targetUserId = a := hk a watch hw
  have hall : ∀ r2 ∈ watch.watchRequests,
      hasReq mem watch.targetUserId r2.callerId = true := by
    intro r2 hr2
    rw [hTa, hasReq_entry hw]
    exact List.any_eq_true.2 ⟨r2, hr2, by simp⟩
  obtain ⟨iu, ik, imo, iso, icp, ipr⟩ :=
    runList_master res watch.targetUserId watch.watchRequests mem db hu hk
      (hu a watch hw) hall
  exact ⟨fun h => (ipr r hr).2 h, fun h => (ipr r hr).1 h⟩

/-- Witness for C9: with resolver resW, c1's dm request fails resolution —
no send, still pending — while c2's channel request is fulfilled once and
removed. -/
theorem C9_resolution_failure_witness :
    (sendsFor "u1" "c1" (nightsWatch resW "u1" true memW dbW).1 = 0 ∧
      hasReq (nightsWatch resW "u1" true memW dbW).2.1 "u1" "c1" = true) ∧
    (sendsFor "u1" "c2" (nightsWatch resW "u1" true memW dbW).1 = 1 ∧
      hasReq (nightsWatch resW "u1" true memW dbW).2.1 "u1" "c2" = false) := by
  have hu : MemUniq memW := by
    intro t u h
    unfold memW at h
    by_cases ht : t = "u1"
    · rw [if_pos ht] at h
      obtain rfl := Option.some.inj h
      decide
    · rw [if_neg ht] at h
      exact Option.noConfusion h
  have hk : MemKeyed memW := by
    intro t u h
    unfold memW at h
    by_cases ht : t = "u1"
    · rw [if_pos ht] at h
      obtain rfl := Option.some.inj h
      rw [ht]
      rfl
    · rw [if_neg ht] at h
      exact Option.noConfusion h
  exact ⟨(C9_resolution_failure resW "u1" memW dbW uEx2 (by decide) hu hk
      reqC1 (by decide)).1 (by decide),
    (C9_resolution_failure resW "u1" memW dbW uEx2 (by decide) hu hk
      reqC2 (by decide)).2 (by decide)⟩
